import Mathlib

/-!
Verification development for the aerospike-xplorer benchmark extraction layer
(src/aerospike_read_benchmark_analyzer/extract_benchmark_data.py and
src/aerospike_write_benchmark_analyzer/extract_benchmark_data.py).

Modelling conventions:
* Python strings are lists of characters (a line of a file is a List Char);
* Python dicts are insertion-ordered association lists;
* Python floats are exact rationals (the benchmark data and the tolerance
  constants are short decimals, far from any rounding boundary);
* a caught Python exception is an Option failure, an uncaught one is the
  error case of Except.
-/

deriving instance DecidableEq for Except

/-- Whitespace recognised by Python str.strip and no-argument str.split. -/
def isSpace (c : Char) : Bool :=
  c == ' ' || c == '\t' || c == '\n' || c == '\r' || c == '\x0b' || c == '\x0c'

/-- ASCII decimal digit test. -/
def isDigitCh (c : Char) : Bool :=
  decide ('0' ≤ c ∧ c ≤ '9')

/-- Python str.strip with no argument. -/
def pstrip (s : List Char) : List Char :=
  ((s.dropWhile isSpace).reverse.dropWhile isSpace).reverse

/-- Python str.rstrip applied with a comma argument, as in token.rstrip of a comma. -/
def rstripComma (s : List Char) : List Char :=
  (s.reverse.dropWhile (fun c => c == ',')).reverse

/-- Value of a list of decimal digit characters. -/
def digitsVal (ds : List Char) : Nat :=
  ds.foldl (fun a c => a * 10 + (c.toNat - '0'.toNat)) 0

/-- Worker for psplitWs, accumulating the current word reversed. -/
def splitWsGo (cur : List Char) : List Char → List (List Char)
  | [] => if cur.isEmpty then [] else [cur.reverse]
  | c :: rest =>
    if isSpace c then
      if cur.isEmpty then splitWsGo [] rest
      else cur.reverse :: splitWsGo [] rest
    else splitWsGo (c :: cur) rest

/-- Python str.split with no argument: split on runs of whitespace, no empty parts. -/
def psplitWs (s : List Char) : List (List Char) :=
  splitWsGo [] s

/-- Python str.split at the first colon (the two-part form used for key: value lines).
Returns none when the string has no colon. -/
def splitColon1 : List Char → Option (List Char × List Char)
  | [] => none
  | c :: rest =>
    if c == ':' then some ([], rest)
    else (splitColon1 rest).map (fun p => (c :: p.1, p.2))

/-- Substring containment, Python - pat in s. -/
def containsSub (pat : List Char) : List Char → Bool
  | [] => pat.isEmpty
  | c :: rest => pat.isPrefixOf (c :: rest) || containsSub pat rest

/-- Python int() applied to a token: optional sign then nonempty digits
(surrounding whitespace stripped).  Underscored digit groups, which never occur
in the benchmark files, are not modelled. -/
def parseIntOpt (s : List Char) : Option Int :=
  match pstrip s with
  | '+' :: ds => if ds ≠ [] ∧ ds.all isDigitCh then some (digitsVal ds : Int) else none
  | '-' :: ds => if ds ≠ [] ∧ ds.all isDigitCh then some (-(digitsVal ds : Int)) else none
  | ds => if ds ≠ [] ∧ ds.all isDigitCh then some (digitsVal ds : Int) else none

/-- Exponent suffix of a Python float literal: optional sign then digits. -/
def parseExpPart (s : List Char) : Option Int :=
  match s with
  | '+' :: ds => if ds ≠ [] ∧ ds.all isDigitCh then some (digitsVal ds : Int) else none
  | '-' :: ds => if ds ≠ [] ∧ ds.all isDigitCh then some (-(digitsVal ds : Int)) else none
  | ds => if ds ≠ [] ∧ ds.all isDigitCh then some (digitsVal ds : Int) else none

/-- Unsigned part of a Python float literal: digits with an optional fractional
part and an optional exponent.  The inf and nan spellings, which never occur in
the benchmark files, are not modelled. -/
def parseUnsignedF (t : List Char) : Option ℚ :=
  let ip := t.takeWhile isDigitCh
  let r1 := t.dropWhile isDigitCh
  match r1 with
  | [] => if ip.isEmpty then none else some (digitsVal ip : ℚ)
  | '.' :: fr =>
    let fd := fr.takeWhile isDigitCh
    let r2 := fr.dropWhile isDigitCh
    if ip.isEmpty && fd.isEmpty then none
    else
      match r2 with
      | [] => some ((digitsVal ip : ℚ) + (digitsVal fd : ℚ) / ((10 : ℚ) ^ fd.length))
      | 'e' :: ex =>
        (parseExpPart ex).map
          (fun e => ((digitsVal ip : ℚ) + (digitsVal fd : ℚ) / ((10 : ℚ) ^ fd.length)) * (10 : ℚ) ^ e)
      | 'E' :: ex =>
        (parseExpPart ex).map
          (fun e => ((digitsVal ip : ℚ) + (digitsVal fd : ℚ) / ((10 : ℚ) ^ fd.length)) * (10 : ℚ) ^ e)
      | _ => none
  | 'e' :: ex =>
    if ip.isEmpty then none
    else (parseExpPart ex).map (fun e => (digitsVal ip : ℚ) * (10 : ℚ) ^ e)
  | 'E' :: ex =>
    if ip.isEmpty then none
    else (parseExpPart ex).map (fun e => (digitsVal ip : ℚ) * (10 : ℚ) ^ e)
  | _ => none

/-- Python float() applied to a token. -/
def parseFloatOpt (s : List Char) : Option ℚ :=
  match pstrip s with
  | '+' :: r => parseUnsignedF r
  | '-' :: r => (parseUnsignedF r).map (fun q => -q)
  | r => parseUnsignedF r

/-- Python abs on a number. -/
def pyAbs (q : ℚ) : ℚ :=
  if q < 0 then -q else q

/-- Insertion-ordered dict write d of k gets v, for string keys. -/
def dictInsert (d : List (List Char × List Char)) (k v : List Char) :
    List (List Char × List Char) :=
  if d.any (fun e => e.1 == k) then
    d.map (fun e => if e.1 == k then (k, v) else e)
  else d ++ [(k, v)]

/-- Insertion-ordered dict write for rational keys (the percentile table). -/
def dictInsertQ (d : List (ℚ × ℚ)) (k v : ℚ) : List (ℚ × ℚ) :=
  if d.any (fun e => decide (e.1 = k)) then
    d.map (fun e => if e.1 = k then (k, v) else e)
  else d ++ [(k, v)]

/-! ## Regular-expression matchers

Each regex of the source is a concatenation of literals and digit groups, and
every digit group is followed by a non-digit literal (or ends the pattern), so
greedy matching is equivalent to taking the maximal digit run at each group.
A search tries the anchored match at every start position, leftmost first. -/

/-- Match a literal, returning the remainder of the subject. -/
def matchLit : List Char → List Char → Option (List Char)
  | [], s => some s
  | _ :: _, [] => none
  | p :: ps, c :: cs => if p = c then matchLit ps cs else none

/-- Match a nonempty maximal digit run, returning the run and the remainder. -/
def matchDigits1 (s : List Char) : Option (List Char × List Char) :=
  let ds := s.takeWhile isDigitCh
  if ds.isEmpty then none else some (ds, s.dropWhile isDigitCh)

/-- A piece of one of the source regexes: a literal or a captured digit group. -/
inductive PatPiece where
  | lit (l : List Char)
  | dig
deriving DecidableEq

/-- Anchored match of a pattern at the head of the subject, collecting the
captured digit groups in order. -/
def matchPieces : List PatPiece → List Char → Option (List (List Char))
  | [], _ => some []
  | .lit l :: ps, s =>
    match matchLit l s with
    | some s1 => matchPieces ps s1
    | none => none
  | .dig :: ps, s =>
    match matchDigits1 s with
    | some ds1 => (matchPieces ps ds1.2).map (fun gs => ds1.1 :: gs)
    | none => none

/-- re.search: the anchored match tried at each start position, leftmost first. -/
def searchPieces (ps : List PatPiece) : List Char → Option (List (List Char))
  | [] => matchPieces ps []
  | c :: rest =>
    match matchPieces ps (c :: rest) with
    | some gs => some gs
    | none => searchPieces ps rest

/-- The read-variant throughput regex of extract_log_data line 150: read of
tps with hit, miss, timeouts and errors groups. -/
def readTpsPat : List PatPiece :=
  [.lit ("read(tps=".toList), .dig, .lit (" (hit=".toList), .dig, .lit (" miss=".toList),
   .dig, .lit (") timeouts=".toList), .dig, .lit (" errors=".toList), .dig, .lit (")".toList)]

/-- Groups of the read-variant throughput regex. -/
structure TpsG where
  tps : Nat
  hits : Nat
  misses : Nat
  timeouts : Nat
  errors : Nat
deriving DecidableEq

/-- re.search of the read-variant throughput regex, line 150. -/
def searchReadTps (s : List Char) : Option TpsG :=
  match searchPieces readTpsPat s with
  | some [t, h, m, o, e] => some ⟨digitsVal t, digitsVal h, digitsVal m, digitsVal o, digitsVal e⟩
  | _ => none

/-- The write-variant throughput regex of parse_log_file line 215: write of
tps; only the tps group is captured. -/
def writeTpsPat : List PatPiece :=
  [.lit ("write(tps=".toList), .dig]

/-- re.search of the write-variant throughput regex. -/
def searchWriteTps (s : List Char) : Option Nat :=
  match searchPieces writeTpsPat s with
  | some [t] => some (digitsVal t)
  | _ => none

/-- The read-variant filename pattern of BenchmarkDataExtractor.file_pattern
(line 28): read_latency_ then pct, size, thread and timestamp digit groups. -/
def readNamePat : List PatPiece :=
  [.lit ("read_latency_".toList), .dig, .lit ("pct_".toList), .dig, .lit ("B_thr".toList),
   .dig, .lit ("_".toList), .dig]

/-- parse_filename of the read variant (lines 34-45): a search of the filename
pattern; a match yields the integer percentage, size and thread fields plus the
timestamp group, no match yields none (the caller skips the file). -/
def parse_filename (filename : List Char) : Option (Nat × Nat × Nat × List Char) :=
  match searchPieces readNamePat filename with
  | some [a, b, c, d] => some (digitsVal a, digitsVal b, digitsVal c, d)
  | _ => none

/-- The write-variant hdr filename pattern of parse_hdr_file line 30:
write_latency_ then pct, lastperc, size and thread digit groups and .txt. -/
def writeNamePat : List PatPiece :=
  [.lit ("write_latency_".toList), .dig, .lit ("pct_".toList), .dig,
   .lit ("lastperc_".toList), .dig, .lit ("B_thr".toList), .dig, .lit (".txt".toList)]

/-- Filename parsing of parse_hdr_file (lines 29-34): an anchored re.match of
the write-variant pattern; none models the ValueError raised on a non-matching
name, which the per-file loop of extract_benchmark_data catches (the file is
skipped and the batch continues). -/
def parse_hdr_filename (filename : List Char) : Option (Nat × Nat × Nat × Nat) :=
  match matchPieces writeNamePat filename with
  | some [a, b, c, d] => some (digitsVal a, digitsVal b, digitsVal c, digitsVal d)
  | _ => none

/-- A possible remainder after a greedy digit group: empty, or starting with a
non-digit (so the group was maximal). -/
def headNotDigit : List Char → Prop
  | [] => True
  | c :: _ => isDigitCh c = false

/-- A canonical decomposition of a subject along a pattern: each literal piece
appears verbatim, each digit group is nonempty, all digits, and followed by a
non-digit, and the groups are collected in order.  On such a decomposition the
greedy matcher is exact. -/
def CanonAt : List PatPiece → List Char → List (List Char) → Prop
  | [], _, gs => gs = []
  | .lit l :: ps, s, gs => ∃ s1, s = l ++ s1 ∧ CanonAt ps s1 gs
  | .dig :: ps, s, gs =>
    ∃ d s1 gs1, s = d ++ s1 ∧ d ≠ [] ∧ d.all isDigitCh = true ∧ headNotDigit s1 ∧
      gs = d :: gs1 ∧ CanonAt ps s1 gs1

/-- A decomposition of a subject along a pattern, without the maximality side
conditions: what an anchored regex match means. -/
def PatMatches : List PatPiece → List Char → List (List Char) → Prop
  | [], _, gs => gs = []
  | .lit l :: ps, s, gs => ∃ s1, s = l ++ s1 ∧ PatMatches ps s1 gs
  | .dig :: ps, s, gs =>
    ∃ d s1 gs1, s = d ++ s1 ∧ d ≠ [] ∧ d.all isDigitCh = true ∧
      gs = d :: gs1 ∧ PatMatches ps s1 gs1

/-- The filename contains a match of the read-variant identifier pattern at
some position. -/
def ReadNameMatch (f : List Char) : Prop :=
  ∃ pre suf gs, f = pre ++ suf ∧ PatMatches readNamePat suf gs

/-- The filename starts with a match of the write-variant identifier pattern. -/
def WriteNameMatch (f : List Char) : Prop :=
  ∃ gs, PatMatches writeNamePat f gs

/-! ## Percentile table and tolerance lookup (write variant, parse_hdr_file) -/

/-- Exact dict lookup in a percentile table. -/
def lookupKey : List (ℚ × ℚ) → ℚ → Option ℚ
  | [], _ => none
  | e :: rest, t => if e.1 = t then some e.2 else lookupKey rest t

/-- One step of the closest-percentile scan: state is the pair of the running
minimal difference and the closest key so far (none before the first key). -/
def scanStep (t : ℚ) (acc : Option (ℚ × ℚ)) (e : ℚ × ℚ) : Option (ℚ × ℚ) :=
  match acc with
  | none => some (pyAbs (e.1 - t), e.1)
  | some (md, cp) => if pyAbs (e.1 - t) < md then some (pyAbs (e.1 - t), e.1) else some (md, cp)

/-- The loop over the recorded percentiles of find_closest_percentile
(lines 100-107): running minimum of the absolute difference, first key wins ties. -/
def closestScan (t : ℚ) (tbl : List (ℚ × ℚ)) : Option (ℚ × ℚ) :=
  tbl.foldl (scanStep t) none

/-- find_closest_percentile of parse_hdr_file (lines 95-112): exact lookup
first; otherwise the closest recorded percentile, used only when its absolute
difference from the target is at most 0.001; otherwise none. -/
def find_closest_percentile (tbl : List (ℚ × ℚ)) (target : ℚ) : Option ℚ :=
  match lookupKey tbl target with
  | some v => some v
  | none =>
    match closestScan target tbl with
    | none => none
    | some (md, cp) => if md ≤ 1 / 1000 then lookupKey tbl cp else none

/-! ## Percentile-data lines of a histogram file (write variant, parse_hdr_file) -/

/-- Numeric payload of one candidate percentile-data line: float of the first
token (the latency value) then float of the second (the percentile); none
models the ValueError caught by the per-line try of parse_hdr_file (lines 56-62). -/
def percLineParse (line : List Char) : Option (ℚ × ℚ) :=
  let parts := psplitWs line
  if parts.length ≥ 3 then
    match parts[0]? with
    | none => none
    | some t0 =>
      match parseFloatOpt t0 with
      | none => none
      | some v =>
        match parts[1]? with
        | none => none
        | some t1 => (parseFloatOpt t1).map (fun p => (v, p))
  else none

/-- Effect of one line of a histogram file on the percentile table
(parse_hdr_file lines 49-62): comment, Database and INDEX lines and blank lines
are ignored; a line of three or more tokens records percentile to value; a
numeric parse failure leaves the table unchanged. -/
def hdrPercentileStep (tbl : List (ℚ × ℚ)) (raw : List Char) : List (ℚ × ℚ) :=
  if !(pstrip raw).isEmpty
      && !(("#".toList).isPrefixOf (pstrip raw))
      && !(("Database".toList).isPrefixOf (pstrip raw))
      && !(("INDEX".toList).isPrefixOf (pstrip raw)) then
    match percLineParse (pstrip raw) with
    | some vp => dictInsertQ tbl vp.2 vp.1
    | none => tbl
  else tbl

/-- Percentile table built from the body lines of a histogram file. -/
def hdrPercentileTable (lines : List (List Char)) : List (ℚ × ℚ) :=
  lines.foldl hdrPercentileStep []

/-! ## Read-variant log stream parsing (extract_log_data, lines 112-187) -/

/-- Payload of one hdr histogram line of the read variant (lines 170-181). -/
structure HdrData where
  hts : List Char
  seconds : Int
  total : Int
  min_latency : Int
  max_latency : Int
  p50 : Int
  p90 : Int
  p99 : Int
  p99_9 : Int
  p99_99 : Option Int
deriving DecidableEq

/-- One per-second sample of the read variant: the throughput fields set at
append time (lines 154-163) and the optional histogram payload merged in later
(line 185), which also overwrites the timestamp. -/
structure Sample where
  timestamp : List Char
  tps : Nat
  hits : Nat
  misses : Nat
  timeouts : Nat
  errors : Nat
  hdr : Option HdrData
deriving DecidableEq

/-- Parser state of the read variant: the in_config flag, the config dict and
the per-second sample list. -/
structure RState where
  in_config : Bool
  config : List (List Char × List Char)
  samples : List Sample
deriving DecidableEq

/-- int of the token at one index, after stripping trailing commas; none is an
IndexError or ValueError. -/
def intTokAt (parts : List (List Char)) (i : Nat) : Option Int :=
  match parts[i]? with
  | some t => parseIntOpt (rstripComma t)
  | none => none

/-- ints of the tokens at a list of indices, left to right, failing at the
first conversion that raises. -/
def intToksAt (parts : List (List Char)) : List Nat → Option (List Int)
  | [] => some []
  | i :: is =>
    match intTokAt parts i with
    | some v => (intToksAt parts is).map (fun vs => v :: vs)
    | none => none

/-- Numeric payload of one hdr line of the read variant (lines 166-181): at
least ten tokens, integer fields at positions three to ten with trailing
commas stripped, the optional twelfth token without stripping; none models the
ValueError or IndexError caught by the per-line try (lines 186-187). -/
def parseHdrRead (parts : List (List Char)) : Option HdrData :=
  if parts.length ≥ 10 then
    match parts[2]? with
    | none => none
    | some ts =>
      match intToksAt parts [3, 4, 5, 6, 7, 8, 9, 10] with
      | some [sec, tot, mn, mx, a50, a90, a99, a999] =>
        if parts.length > 11 then
          match parts[11]? with
          | some tk11 =>
            match parseIntOpt tk11 with
            | some v => some ⟨ts, sec, tot, mn, mx, a50, a90, a99, a999, some v⟩
            | none => none
          | none => none
        else some ⟨ts, sec, tot, mn, mx, a50, a90, a99, a999, none⟩
      | _ => none
  else none

/-- Merging an hdr payload into a sample: dict update of the sample record with
the hdr fields, which overwrites the timestamp (line 185). -/
def applyHdr (s : Sample) (h : HdrData) : Sample :=
  { s with timestamp := h.hts, hdr := some h }

/-- Update of the last list element, a no-op on the empty list (the guard
on line 184). -/
def updateLast : List Sample → HdrData → List Sample
  | [], _ => []
  | [s], h => [applyHdr s h]
  | s :: t :: rest, h => s :: updateLast (t :: rest) h

/-- The config-section branch (lines 135-138): in the header state, a
colon-containing line not starting with the year literal writes its stripped
key and value into the config dict. -/
def configStep (st : RState) (line : List Char) : RState :=
  if st.in_config && line.any (fun c => c == ':') && !(("2025-".toList).isPrefixOf line) then
    match splitColon1 line with
    | some kv => { st with config := dictInsert st.config (pstrip kv.1) (pstrip kv.2) }
    | none => st
  else st

/-- The throughput branch (lines 146-163): a line starting with the year
literal and containing the tps marker joins its first two tokens into a
timestamp (an uncaught IndexError, the error case, if the line has fewer than
two tokens), then appends a fresh sample if the throughput regex matches. -/
def tpsStep (st : RState) (line : List Char) : Except Unit RState :=
  if ("2025-".toList).isPrefixOf line && containsSub ("read(tps=".toList) line then
    match psplitWs line with
    | p0 :: p1 :: _ =>
      match searchReadTps line with
      | some g =>
        .ok { st with samples :=
          st.samples ++ [⟨p0 ++ (' ' :: p1), g.tps, g.hits, g.misses, g.timeouts, g.errors, none⟩] }
      | none => .ok st
    | _ => .error ()
  else .ok st

/-- The hdr branch (lines 166-187): a line starting with the hdr read marker
updates the most recently appended sample when its payload parses; a parse
failure, or an empty sample list, leaves the state unchanged. -/
def hdrStep (st : RState) (line : List Char) : RState :=
  if ("hdr: read".toList).isPrefixOf line then
    match parseHdrRead (psplitWs line) with
    | some h => { st with samples := updateLast st.samples h }
    | none => st
  else st

/-- Processing of one line of a read-variant log file (the loop body, lines
131-187): strip, the config branch, the stage-marker transition (which ends the
iteration), then the throughput and hdr branches. -/
def processLine (st : RState) (raw : List Char) : Except Unit RState :=
  if ("Stage 1:".toList).isPrefixOf (pstrip raw) then
    .ok { configStep st (pstrip raw) with in_config := false }
  else
    match tpsStep (configStep st (pstrip raw)) (pstrip raw) with
    | .error e => .error e
    | .ok st2 => .ok (hdrStep st2 (pstrip raw))

/-- The line loop of extract_log_data from a given state. -/
def runRead : RState → List (List Char) → Except Unit RState
  | st, [] => .ok st
  | st, l :: ls =>
    match processLine st l with
    | .ok st' => runRead st' ls
    | .error e => .error e

/-- extract_log_data on the body lines of one log file: the loop starting in
the config-header state with empty config and samples. -/
def extractReadState (lines : List (List Char)) : Except Unit RState :=
  runRead ⟨true, [], []⟩ lines

/-! ## Abstract per-line sample effects of the read variant -/

/-- Effect of one line on the sample list: append a fresh sample, update the
last one, no effect, or an uncaught exception. -/
inductive Eff where
  | app (s : Sample)
  | upd (h : HdrData)
  | noop
  | crash
deriving DecidableEq

/-- The sample effect of a line, read off the same conditions as processLine. -/
def lineEff (raw : List Char) : Eff :=
  if ("Stage 1:".toList).isPrefixOf (pstrip raw) then .noop
  else if ("2025-".toList).isPrefixOf (pstrip raw)
      && containsSub ("read(tps=".toList) (pstrip raw) then
    match psplitWs (pstrip raw) with
    | p0 :: p1 :: _ =>
      match searchReadTps (pstrip raw) with
      | some g => .app ⟨p0 ++ (' ' :: p1), g.tps, g.hits, g.misses, g.timeouts, g.errors, none⟩
      | none => .noop
    | _ => .crash
  else if ("hdr: read".toList).isPrefixOf (pstrip raw) then
    match parseHdrRead (psplitWs (pstrip raw)) with
    | some h => .upd h
    | none => .noop
  else .noop

/-- Application of one effect to a sample list. -/
def effApply (l : List Sample) : Eff → List Sample
  | .app s => l ++ [s]
  | .upd h => updateLast l h
  | _ => l

/-- Folding a list of effects over a sample list. -/
def effFold (l : List Sample) (es : List Eff) : List Sample :=
  es.foldl effApply l

/-- Modelled from the spec merge description: the samples of one group are the
current sample updated by every following histogram payload until the next
throughput line. -/
def specGo (cur : Sample) : List Eff → List Sample
  | [] => [cur]
  | .app s :: rest => cur :: specGo s rest
  | .upd h :: rest => specGo (applyHdr cur h) rest
  | _ :: rest => specGo cur rest

/-- Modelled from the spec merge description: each throughput line opens a
group, each histogram line updates the most recently opened group. -/
def specMerge : List Eff → List Sample
  | [] => []
  | .app s :: rest => specGo s rest
  | _ :: rest => specMerge rest

/-- Every histogram (update) line is preceded by at least one throughput
(append) line: no update effect before the first append effect. -/
def noLeadingUpd : List Eff → Bool
  | [] => true
  | .upd _ :: _ => false
  | .app _ :: _ => true
  | _ :: rest => noLeadingUpd rest

/-- Is the effect an append. -/
def isApp : Eff → Bool
  | .app _ => true
  | _ => false

/-- Number of append effects, one per recognised throughput line. -/
def countApp (es : List Eff) : Nat :=
  es.countP isApp

/-! ## Aggregator of the read variant (lines 196-213) -/

/-- Presence and value of the p50 field of a sample. -/
def getP50 (s : Sample) : Option Int := s.hdr.map (fun h => h.p50)

/-- Presence and value of the p90 field of a sample. -/
def getP90 (s : Sample) : Option Int := s.hdr.map (fun h => h.p90)

/-- Presence and value of the p99 field of a sample. -/
def getP99 (s : Sample) : Option Int := s.hdr.map (fun h => h.p99)

/-- The warm-up discard of line 197: all samples after the first ten when
there are more than ten, the whole sequence otherwise. -/
def stable_data (l : List Sample) : List Sample :=
  if l.length > 10 then l.drop 10 else l

/-- The per-field candidate values over the stable window (lines 199-201):
samples lacking the field contribute nothing. -/
def pvalsOf (f : Sample → Option Int) (l : List Sample) : List Int :=
  (stable_data l).filterMap f

/-- Average with the conservative zero default of lines 204-206. -/
def avgOr0 (xs : List Int) : ℚ :=
  if xs.isEmpty then 0 else (xs.sum : ℚ) / (xs.length : ℚ)

/-- Minimum with the zero default of lines 207-209. -/
def minOr0 : List Int → Int
  | [] => 0
  | x :: xs => xs.foldl min x

/-- Maximum with the zero default of lines 210-212. -/
def maxOr0 : List Int → Int
  | [] => 0
  | x :: xs => xs.foldl max x

/-- The latency aggregate record of lines 203-213. -/
structure LatencyStats where
  avg_p50 : ℚ
  avg_p90 : ℚ
  avg_p99 : ℚ
  min_p50 : Int
  min_p90 : Int
  min_p99 : Int
  max_p50 : Int
  max_p90 : Int
  max_p99 : Int
deriving DecidableEq

/-- The aggregator over a sample sequence (lines 196-213). -/
def latency_stats (l : List Sample) : LatencyStats :=
  ⟨avgOr0 (pvalsOf getP50 l), avgOr0 (pvalsOf getP90 l), avgOr0 (pvalsOf getP99 l),
   minOr0 (pvalsOf getP50 l), minOr0 (pvalsOf getP90 l), minOr0 (pvalsOf getP99 l),
   maxOr0 (pvalsOf getP50 l), maxOr0 (pvalsOf getP90 l), maxOr0 (pvalsOf getP99 l)⟩

/-- Modelled from the spec stable-window wording: the full sequence when it
has at most ten samples, otherwise the sequence with the first ten discarded. -/
def specWindow (l : List Sample) : List Sample :=
  if l.length ≤ 10 then l else l.drop 10

/-- Modelled from the spec aggregator wording: the average of the field over
the stable window, samples lacking the field excluded, zero on an empty
candidate set. -/
def specAvgStable (f : Sample → Option Int) (l : List Sample) : ℚ :=
  let xs := (specWindow l).filterMap f
  if xs.length = 0 then 0 else (xs.sum : ℚ) / (xs.length : ℚ)

/-- Modelled from the spec aggregator wording: the minimum of the field over
the stable window, zero on an empty candidate set. -/
def specMinStable (f : Sample → Option Int) (l : List Sample) : Int :=
  match (specWindow l).filterMap f with
  | [] => 0
  | x :: xs => xs.foldl min x

/-- Modelled from the spec aggregator wording: the maximum of the field over
the stable window, zero on an empty candidate set. -/
def specMaxStable (f : Sample → Option Int) (l : List Sample) : Int :=
  match (specWindow l).filterMap f with
  | [] => 0
  | x :: xs => xs.foldl max x

/-! ## Write-variant log parsing (parse_log_file, lines 143-229) -/

/-- One metrics entry of the write variant, appended by an hdr line (lines
200-211); the tps field is written later by a throughput line (line 218). -/
structure WMetric where
  wts : List Char
  seconds : Int
  total : Int
  min_latency : Int
  max_latency : Int
  p50 : Int
  p90 : Int
  p99 : Int
  p999 : Int
  p9999 : Option Int
  tps : Option Int
deriving DecidableEq

/-- Parser state of the write variant: the config dict and the metrics list;
there is no header flag in parse_log_file. -/
structure WState where
  config : List (List Char × List Char)
  metrics : List WMetric
deriving DecidableEq

/-- Numeric payload of one hdr write line (lines 189-198), the same token
positions as the read variant.  parse_log_file has no try around these
conversions, so any ValueError or IndexError is the error case and aborts the
file. -/
def wHdrParse (parts : List (List Char)) : Except Unit WMetric :=
  match parts[2]? with
  | none => .error ()
  | some ts =>
    match intToksAt parts [3, 4, 5, 6, 7, 8, 9, 10] with
    | some [sec, tot, mn, mx, a50, a90, a99, a999] =>
      if parts.length > 11 then
        match parts[11]? with
        | some tk11 =>
          match parseIntOpt tk11 with
          | some v => .ok ⟨ts, sec, tot, mn, mx, a50, a90, a99, a999, some v, none⟩
          | none => .error ()
        | none => .error ()
      else .ok ⟨ts, sec, tot, mn, mx, a50, a90, a99, a999, none, none⟩
    | _ => .error ()

/-- Write of the tps field into the last metrics entry (line 218). -/
def wTpsUpdateLast : List WMetric → Int → List WMetric
  | [], _ => []
  | [m], t => [{ m with tps := some t }]
  | m :: n :: rest, t => m :: wTpsUpdateLast (n :: rest) t

/-- Processing of one line of a write-variant log file (the loop body of
parse_log_file, lines 174-218): the config branch (which has no header-state
flag), the hdr write branch, which appends, then the tps branch, which updates
the last metrics entry when one exists. -/
def wProcessLine (st : WState) (raw : List Char) : Except Unit WState := do
  let line := pstrip raw
  let st1 :=
    if line.any (fun c => c == ':')
        && !(("20".toList).isPrefixOf line)
        && !(("hdr:".toList).isPrefixOf line) then
      match splitColon1 line with
      | some kv => { st with config := dictInsert st.config (pstrip kv.1) (pstrip kv.2) }
      | none => st
    else st
  let st2 ←
    if ("hdr: write".toList).isPrefixOf line then
      if (psplitWs line).length ≥ 10 then do
        let m ← wHdrParse (psplitWs line)
        pure { st1 with metrics := st1.metrics ++ [m] }
      else pure st1
    else pure st1
  if containsSub ("write(tps=".toList) line then
    match searchWriteTps line with
    | some t =>
      if st2.metrics.isEmpty then pure st2
      else pure { st2 with metrics := wTpsUpdateLast st2.metrics (t : Int) }
    | none => pure st2
  else pure st2

/-- The line loop of parse_log_file from a given state. -/
def wRun : WState → List (List Char) → Except Unit WState
  | st, [] => .ok st
  | st, l :: ls =>
    match wProcessLine st l with
    | .ok st' => wRun st' ls
    | .error e => .error e

/-- parse_log_file on the body lines of one write-variant log file. -/
def extractWriteState (lines : List (List Char)) : Except Unit WState :=
  wRun ⟨[], []⟩ lines

/-! ## Correlator (save_summary_to_csv, read variant, lines 254-303) -/

/-- The join key: percentage, record size in bytes, thread count. -/
abbrev ConfigKey := Nat × Nat × Nat

/-- Lexicographic comparison of config keys, the order of Python sorted on
integer triples. -/
def keyLe (a b : ConfigKey) : Bool :=
  decide (a.1 < b.1 ∨ (a.1 = b.1 ∧ (a.2.1 < b.2.1 ∨ (a.2.1 = b.2.1 ∧ a.2.2 ≤ b.2.2))))

/-- Stable insertion into a sorted key list. -/
def insSorted (x : ConfigKey) : List ConfigKey → List ConfigKey
  | [] => [x]
  | y :: ys => if keyLe x y then x :: y :: ys else y :: insSorted x ys

/-- Python sorted on the key list, modelled as insertion sort. -/
def sortKeys : List ConfigKey → List ConfigKey
  | [] => []
  | x :: xs => insSorted x (sortKeys xs)

/-- Dict lookup by config key. -/
def lookupCK (k : ConfigKey) : List (ConfigKey × α) → Option α
  | [] => none
  | e :: rest => if e.1 = k then some e.2 else lookupCK k rest

/-- The correlated row set of save_summary_to_csv (lines 262-294): iterate the
sorted log keys and emit one row per key whose hdr entry also exists; a key
present on only one side yields no row, and neither source map is modified. -/
def summaryRows (logD : List (ConfigKey × α)) (hdrD : List (ConfigKey × β)) :
    List (ConfigKey × α × β) :=
  (sortKeys (logD.map (fun e => e.1))).filterMap (fun k =>
    match lookupCK k logD, lookupCK k hdrD with
    | some le, some he => some (k, le, he)
    | _, _ => none)

/-- The key set of the correlated rows. -/
def summaryRowKeys (logD : List (ConfigKey × α)) (hdrD : List (ConfigKey × β)) :
    List ConfigKey :=
  (summaryRows logD hdrD).map (fun r => r.1)

/-! ## Concrete example data used by the claims -/

/-- A sample whose histogram payload carries only a p99 value. -/
def mkP99 (n : Int) : Sample :=
  ⟨[], 0, 0, 0, 0, 0, some ⟨[], 0, 0, 0, 0, 0, 0, n, 0, none⟩⟩

/-- Fifteen samples whose p99 values are ten tens then 20, 22, 24, 26, 28. -/
def ex15 : List Sample :=
  List.replicate 10 (mkP99 10) ++ [mkP99 20, mkP99 22, mkP99 24, mkP99 26, mkP99 28]

/-- The percentile table of the spec example: 0.5 maps to 120.0 and 0.99 to
980.0. -/
def exTbl : List (ℚ × ℚ) :=
  [(1 / 2, 120), (99 / 100, 980)]

/-! # Theorems

Claim theorems are named claimCn followed by a suffix; each is preceded by the
helper lemmas it needs. -/

theorem lookupKey_some_mem : ∀ (tbl : List (ℚ × ℚ)) (t v : ℚ),
    lookupKey tbl t = some v → (t, v) ∈ tbl := by
  intro tbl
  induction tbl with
  | nil => intro t v h; exact absurd h (by simp [lookupKey])
  | cons e rest ih =>
    intro t v h
    simp only [lookupKey] at h
    by_cases he : e.1 = t
    · rw [if_pos he] at h
      injection h with h2
      have : (t, v) = e := by rw [← he, ← h2]
      rw [this]
      exact List.mem_cons_self e rest
    · rw [if_neg he] at h
      exact List.mem_cons_of_mem _ (ih t v h)

theorem lookupKey_mem_some : ∀ (tbl : List (ℚ × ℚ)) (q u : ℚ), (q, u) ∈ tbl →
    ∃ v, lookupKey tbl q = some v ∧ (q, v) ∈ tbl := by
  intro tbl
  induction tbl with
  | nil => intro q u h; simp at h
  | cons e rest ih =>
    intro q u hmem
    by_cases he : e.1 = q
    · refine ⟨e.2, ?_, ?_⟩
      · simp only [lookupKey]; rw [if_pos he]
      · have : (q, e.2) = e := by rw [← he]
        rw [this]; exact List.mem_cons_self e rest
    · rcases List.mem_cons.mp hmem with hcase | hcase
      · exact absurd (by rw [← hcase] : e.1 = q) he
      · obtain ⟨v, hv, hvm⟩ := ih q u hcase
        refine ⟨v, ?_, List.mem_cons_of_mem _ hvm⟩
        simp only [lookupKey]; rw [if_neg he]; exact hv

theorem scan_foldl_isSome (t : ℚ) : ∀ (tbl : List (ℚ × ℚ)) (a : ℚ × ℚ),
    ∃ r, tbl.foldl (scanStep t) (some a) = some r := by
  intro tbl
  induction tbl with
  | nil => intro a; exact ⟨a, rfl⟩
  | cons e rest ih =>
    intro a
    obtain ⟨md, cp⟩ := a
    simp only [List.foldl_cons, scanStep]
    by_cases hlt : pyAbs (e.1 - t) < md
    · rw [if_pos hlt]; exact ih _
    · rw [if_neg hlt]; exact ih _

theorem scan_foldl_spec (t : ℚ) : ∀ (tbl : List (ℚ × ℚ)) (md cp : ℚ) (r : ℚ × ℚ),
    tbl.foldl (scanStep t) (some (md, cp)) = some r →
    r.1 ≤ md ∧ (∀ e ∈ tbl, r.1 ≤ pyAbs (e.1 - t)) ∧
      (r = (md, cp) ∨ ∃ e ∈ tbl, r = (pyAbs (e.1 - t), e.1)) := by
  intro tbl
  induction tbl with
  | nil =>
    intro md cp r h
    simp only [List.foldl_nil] at h
    injection h with h
    subst h
    exact ⟨le_refl _, by simp, Or.inl rfl⟩
  | cons e rest ih =>
    intro md cp r h
    simp only [List.foldl_cons, scanStep] at h
    by_cases hlt : pyAbs (e.1 - t) < md
    · rw [if_pos hlt] at h
      obtain ⟨h1, h2, h3⟩ := ih _ _ _ h
      refine ⟨le_trans h1 (le_of_lt hlt), ?_, ?_⟩
      · intro f hf
        rcases List.mem_cons.mp hf with rfl | hf'
        · exact h1
        · exact h2 f hf'
      · rcases h3 with h3 | ⟨f, hf, h3⟩
        · exact Or.inr ⟨e, List.mem_cons_self e rest, h3⟩
        · exact Or.inr ⟨f, List.mem_cons_of_mem _ hf, h3⟩
    · rw [if_neg hlt] at h
      obtain ⟨h1, h2, h3⟩ := ih _ _ _ h
      have hge : md ≤ pyAbs (e.1 - t) := le_of_not_lt hlt
      refine ⟨h1, ?_, ?_⟩
      · intro f hf
        rcases List.mem_cons.mp hf with rfl | hf'
        · exact le_trans h1 hge
        · exact h2 f hf'
      · rcases h3 with h3 | ⟨f, hf, h3⟩
        · exact Or.inl h3
        · exact Or.inr ⟨f, List.mem_cons_of_mem _ hf, h3⟩

theorem closestScan_spec (t : ℚ) (x : ℚ × ℚ) (rest : List (ℚ × ℚ)) :
    ∃ md cp, closestScan t (x :: rest) = some (md, cp) ∧
      (∃ e ∈ x :: rest, e.1 = cp ∧ md = pyAbs (e.1 - t)) ∧
      ∀ e ∈ x :: rest, md ≤ pyAbs (e.1 - t) := by
  obtain ⟨r, hr⟩ := scan_foldl_isSome t rest (pyAbs (x.1 - t), x.1)
  obtain ⟨h1, h2, h3⟩ := scan_foldl_spec t rest _ _ r hr
  refine ⟨r.1, r.2, ?_, ?_, ?_⟩
  · show (x :: rest).foldl (scanStep t) none = some (r.1, r.2)
    simp only [List.foldl_cons, scanStep]
    rw [hr]
  · rcases h3 with h3 | ⟨f, hf, h3⟩
    · exact ⟨x, List.mem_cons_self x rest, by rw [h3], by rw [h3]⟩
    · exact ⟨f, List.mem_cons_of_mem _ hf, by rw [h3], by rw [h3]⟩
  · intro f hf
    rcases List.mem_cons.mp hf with rfl | hf'
    · exact h1
    · exact h2 f hf'

/-- Claim C1: for every PercentileTable and requested percentile, an exact key
returns the stored value; otherwise the value at the closest recorded
percentile is returned exactly when its absolute distance is at most 0.001,
and none otherwise, including the empty table; on the table of 0.5 to 120 and
0.99 to 980, looking up 0.9 gives none and looking up 0.9901 gives 980. -/
theorem claimC1_percentile_lookup :
    (∀ (tbl : List (ℚ × ℚ)) (t v : ℚ), lookupKey tbl t = some v →
        find_closest_percentile tbl t = some v) ∧
    (∀ (tbl : List (ℚ × ℚ)) (t : ℚ), (∀ e ∈ tbl, ¬ pyAbs (e.1 - t) ≤ 1 / 1000) →
        find_closest_percentile tbl t = none) ∧
    (∀ (tbl : List (ℚ × ℚ)) (t : ℚ), lookupKey tbl t = none →
        (∃ e ∈ tbl, pyAbs (e.1 - t) ≤ 1 / 1000) →
        ∃ q v, (∃ u, (q, u) ∈ tbl) ∧ pyAbs (q - t) ≤ 1 / 1000 ∧
          (∀ e ∈ tbl, pyAbs (q - t) ≤ pyAbs (e.1 - t)) ∧
          lookupKey tbl q = some v ∧ find_closest_percentile tbl t = some v) ∧
    (find_closest_percentile exTbl (9 / 10) = none ∧
     find_closest_percentile exTbl (9901 / 10000) = some 980) := by
  refine ⟨?_, ?_, ?_, ?_, ?_⟩
  · intro tbl t v h
    unfold find_closest_percentile
    rw [h]
  · intro tbl t hfar
    have hnone : lookupKey tbl t = none := by
      cases hl : lookupKey tbl t with
      | none => rfl
      | some v =>
        exfalso
        apply hfar (t, v) (lookupKey_some_mem tbl t v hl)
        show pyAbs (t - t) ≤ 1 / 1000
        rw [sub_self]
        norm_num [pyAbs]
    cases tbl with
    | nil => rfl
    | cons x rest =>
      obtain ⟨md, cp, heq, ⟨e, hem, he1, hmd⟩, hbound⟩ := closestScan_spec t x rest
      simp only [find_closest_percentile, hnone, heq]
      rw [if_neg (by rw [hmd]; exact hfar e hem)]
  · intro tbl t hnone hex
    obtain ⟨e0, he0, he0tol⟩ := hex
    cases tbl with
    | nil => simp at he0
    | cons x rest =>
      obtain ⟨md, cp, heq, ⟨e, hem, he1, hmd⟩, hbound⟩ := closestScan_spec t x rest
      have hmdtol : md ≤ 1 / 1000 := le_trans (hbound e0 he0) he0tol
      have hcpmem : (cp, e.2) ∈ x :: rest := by
        have : (cp, e.2) = e := by rw [← he1]
        rw [this]; exact hem
      obtain ⟨v, hv, hvm⟩ := lookupKey_mem_some _ cp e.2 hcpmem
      refine ⟨cp, v, ⟨e.2, hcpmem⟩, ?_, ?_, hv, ?_⟩
      · rw [← he1, ← hmd]; exact hmdtol
      · intro f hf
        rw [← he1, ← hmd]; exact hbound f hf
      · simp only [find_closest_percentile, hnone, heq]
        rw [if_pos hmdtol]
        exact hv
  · norm_num [find_closest_percentile, exTbl, lookupKey, closestScan, List.foldl, scanStep, pyAbs]
  · norm_num [find_closest_percentile, exTbl, lookupKey, closestScan, List.foldl, scanStep, pyAbs]

/-- Witness for claim C1 at concrete inputs: an exact hit on 0.5, the
tolerance hit on 0.9901 over the example table, and the far miss 0.9 on a
one-entry table. -/
theorem claimC1_witness :
    find_closest_percentile exTbl (1 / 2) = some 120 ∧
    (∃ q v, (∃ u, (q, u) ∈ exTbl) ∧ pyAbs (q - 9901 / 10000) ≤ 1 / 1000 ∧
      (∀ e ∈ exTbl, pyAbs (q - 9901 / 10000) ≤ pyAbs (e.1 - 9901 / 10000)) ∧
      lookupKey exTbl q = some v ∧ find_closest_percentile exTbl (9901 / 10000) = some v) ∧
    find_closest_percentile [(1 / 2, 120)] (9 / 10) = none :=
  ⟨claimC1_percentile_lookup.1 exTbl (1 / 2) 120 (by norm_num [lookupKey, exTbl]),
   claimC1_percentile_lookup.2.2.1 exTbl (9901 / 10000)
     (by norm_num [lookupKey, exTbl])
     ⟨(99 / 100, 980), by norm_num [exTbl], by norm_num [pyAbs]⟩,
   claimC1_percentile_lookup.2.1 [(1 / 2, 120)] (9 / 10)
     (by intro e he; simp only [List.mem_singleton] at he; subst he; norm_num [pyAbs])⟩

theorem stable_eq_specWindow (l : List Sample) : stable_data l = specWindow l := by
  unfold stable_data specWindow
  by_cases h : l.length > 10
  · rw [if_pos h, if_neg (by omega)]
  · rw [if_neg h, if_pos (by omega)]

theorem specAvgStable_eq (f : Sample → Option Int) (l : List Sample) :
    specAvgStable f l = avgOr0 ((specWindow l).filterMap f) := by
  unfold specAvgStable avgOr0
  cases (specWindow l).filterMap f with
  | nil => simp
  | cons x xs => simp

theorem specMinStable_eq (f : Sample → Option Int) (l : List Sample) :
    specMinStable f l = minOr0 ((specWindow l).filterMap f) := by
  unfold specMinStable minOr0
  cases (specWindow l).filterMap f <;> rfl

theorem specMaxStable_eq (f : Sample → Option Int) (l : List Sample) :
    specMaxStable f l = maxOr0 ((specWindow l).filterMap f) := by
  unfold specMaxStable maxOr0
  cases (specWindow l).filterMap f <;> rfl

/-- Claim C3: the aggregator computes avg, min and max of p50, p90 and p99
over the stable window only (drop the first ten samples when more than ten),
excluding samples that lack the field, and on fifteen samples with p99 values
ten tens then 20, 22, 24, 26, 28 the p99 average is 24. -/
theorem claimC3_stable_window :
    (∀ l : List Sample,
      (latency_stats l).avg_p50 = specAvgStable getP50 l ∧
      (latency_stats l).avg_p90 = specAvgStable getP90 l ∧
      (latency_stats l).avg_p99 = specAvgStable getP99 l ∧
      (latency_stats l).min_p50 = specMinStable getP50 l ∧
      (latency_stats l).min_p90 = specMinStable getP90 l ∧
      (latency_stats l).min_p99 = specMinStable getP99 l ∧
      (latency_stats l).max_p50 = specMaxStable getP50 l ∧
      (latency_stats l).max_p90 = specMaxStable getP90 l ∧
      (latency_stats l).max_p99 = specMaxStable getP99 l) ∧
    (latency_stats ex15).avg_p99 = 24 := by
  constructor
  · intro l
    have key : ∀ f : Sample → Option Int, pvalsOf f l = (specWindow l).filterMap f := by
      intro f
      unfold pvalsOf
      rw [stable_eq_specWindow]
    refine ⟨?_, ?_, ?_, ?_, ?_, ?_, ?_, ?_, ?_⟩ <;>
      simp only [latency_stats, specAvgStable_eq, specMinStable_eq, specMaxStable_eq, key]
  · have h : pvalsOf getP99 ex15 = [20, 22, 24, 26, 28] := by decide
    show avgOr0 (pvalsOf getP99 ex15) = 24
    rw [h]
    norm_num [avgOr0, List.sum_cons, List.sum_nil]

/-- Claim C8: when the stable-window candidate set of a percentile field is
empty the aggregator reports zero for that field's avg, min and max; it
neither divides by zero nor emits a null. -/
theorem claimC8_empty_zero :
    ∀ l : List Sample,
      (pvalsOf getP50 l = [] → (latency_stats l).avg_p50 = 0 ∧
        (latency_stats l).min_p50 = 0 ∧ (latency_stats l).max_p50 = 0) ∧
      (pvalsOf getP90 l = [] → (latency_stats l).avg_p90 = 0 ∧
        (latency_stats l).min_p90 = 0 ∧ (latency_stats l).max_p90 = 0) ∧
      (pvalsOf getP99 l = [] → (latency_stats l).avg_p99 = 0 ∧
        (latency_stats l).min_p99 = 0 ∧ (latency_stats l).max_p99 = 0) := by
  intro l
  refine ⟨fun h => ?_, fun h => ?_, fun h => ?_⟩ <;>
    simp [latency_stats, h, avgOr0, minOr0, maxOr0]

/-- Witness for claim C8: a single sample that carries no histogram payload
has empty candidate sets and all nine aggregates are zero. -/
theorem claimC8_witness :
    ((latency_stats [⟨[], 0, 0, 0, 0, 0, none⟩]).avg_p50 = 0 ∧
      (latency_stats [⟨[], 0, 0, 0, 0, 0, none⟩]).min_p50 = 0 ∧
      (latency_stats [⟨[], 0, 0, 0, 0, 0, none⟩]).max_p50 = 0) ∧
    ((latency_stats [⟨[], 0, 0, 0, 0, 0, none⟩]).avg_p90 = 0 ∧
      (latency_stats [⟨[], 0, 0, 0, 0, 0, none⟩]).min_p90 = 0 ∧
      (latency_stats [⟨[], 0, 0, 0, 0, 0, none⟩]).max_p90 = 0) ∧
    ((latency_stats [⟨[], 0, 0, 0, 0, 0, none⟩]).avg_p99 = 0 ∧
      (latency_stats [⟨[], 0, 0, 0, 0, 0, none⟩]).min_p99 = 0 ∧
      (latency_stats [⟨[], 0, 0, 0, 0, 0, none⟩]).max_p99 = 0) :=
  ⟨(claimC8_empty_zero _).1 (by rfl),
   (claimC8_empty_zero _).2.1 (by rfl),
   (claimC8_empty_zero _).2.2 (by rfl)⟩

theorem mem_insSorted (x a : ConfigKey) : ∀ l, a ∈ insSorted x l ↔ a = x ∨ a ∈ l := by
  intro l
  induction l with
  | nil => simp [insSorted]
  | cons y ys ih =>
    simp only [insSorted]
    by_cases h : keyLe x y = true
    · rw [if_pos h]
      simp [List.mem_cons]
    · rw [if_neg h]
      simp only [List.mem_cons, ih]
      tauto

theorem mem_sortKeys (a : ConfigKey) : ∀ l, a ∈ sortKeys l ↔ a ∈ l := by
  intro l
  induction l with
  | nil => simp [sortKeys]
  | cons x xs ih =>
    simp only [sortKeys, mem_insSorted, ih, List.mem_cons]

theorem lookupCK_isSome_iff {α : Type} : ∀ (m : List (ConfigKey × α)) (k : ConfigKey),
    (∃ v, lookupCK k m = some v) ↔ k ∈ m.map (fun e => e.1) := by
  intro m
  induction m with
  | nil => intro k; simp [lookupCK]
  | cons e rest ih =>
    intro k
    by_cases h : e.1 = k
    · simp [lookupCK, h]
    · simp only [lookupCK, if_neg h, List.map_cons, List.mem_cons, ih k]
      constructor
      · intro hv; exact Or.inr hv
      · rintro (hk | hk)
        · exact absurd hk.symm h
        · exact hk

/-- Claim C7: the correlated row set has exactly one row per ConfigKey present
in both the histogram map and the log map - its key set is the intersection of
the two key sets - and on keys A, B in histogram data and B, C in log data the
row set is exactly B. -/
theorem claimC7_inner_join :
    (∀ (α β : Type) (logD : List (ConfigKey × α)) (hdrD : List (ConfigKey × β)) (k : ConfigKey),
        k ∈ summaryRowKeys logD hdrD ↔
          (k ∈ logD.map (fun e => e.1) ∧ k ∈ hdrD.map (fun e => e.1))) ∧
    summaryRowKeys [((50, 1024, 4), (3 : Nat)), ((75, 1024, 4), 4)]
        [((25, 1024, 4), (1 : Nat)), ((50, 1024, 4), 2)] = [(50, 1024, 4)] := by
  constructor
  · intro α β logD hdrD k
    unfold summaryRowKeys summaryRows
    constructor
    · intro hk
      rw [List.mem_map] at hk
      obtain ⟨r, hr, hrk⟩ := hk
      rw [List.mem_filterMap] at hr
      obtain ⟨k', hk', hf⟩ := hr
      cases hl : lookupCK k' logD with
      | none => rw [hl] at hf; cases hh : lookupCK k' hdrD <;> rw [hh] at hf <;> cases hf
      | some le =>
        rw [hl] at hf
        cases hh : lookupCK k' hdrD with
        | none => rw [hh] at hf; cases hf
        | some he =>
          rw [hh] at hf
          injection hf with hf
          have hkk : k' = k := by rw [← hrk, ← hf]
          subst hkk
          constructor
          · exact (mem_sortKeys k' _).mp hk'
          · exact (lookupCK_isSome_iff hdrD k').mp ⟨he, hh⟩
    · rintro ⟨hkl, hkh⟩
      obtain ⟨le, hle⟩ := (lookupCK_isSome_iff logD k).mpr hkl
      obtain ⟨he, hhe⟩ := (lookupCK_isSome_iff hdrD k).mpr hkh
      rw [List.mem_map]
      refine ⟨(k, le, he), ?_, rfl⟩
      rw [List.mem_filterMap]
      refine ⟨k, (mem_sortKeys k _).mpr hkl, ?_⟩
      rw [hle, hhe]
  · decide

theorem matchLit_append (l r : List Char) : matchLit l (l ++ r) = some r := by
  induction l with
  | nil => rfl
  | cons c cs ih => simp [matchLit, ih]

theorem matchLit_inv : ∀ (l s r : List Char), matchLit l s = some r → s = l ++ r := by
  intro l
  induction l with
  | nil =>
    intro s r h
    injection h with h
  | cons c cs ih =>
    intro s r h
    cases s with
    | nil => exact absurd h (by simp [matchLit])
    | cons d ds =>
      simp only [matchLit] at h
      by_cases hcd : c = d
      · rw [if_pos hcd] at h
        rw [List.cons_append, ← hcd, ih ds r h]
      · rw [if_neg hcd] at h; cases h

theorem all_takeWhile_self (p : Char → Bool) : ∀ l : List Char, (l.takeWhile p).all p = true := by
  intro l
  induction l with
  | nil => rfl
  | cons c cs ih =>
    by_cases h : p c
    · simp [List.takeWhile_cons, h, ih]
    · simp [List.takeWhile_cons, h]

theorem takeWhile_digits_append (ds r : List Char) (hall : ds.all isDigitCh = true)
    (hnd : headNotDigit r) :
    (ds ++ r).takeWhile isDigitCh = ds ∧ (ds ++ r).dropWhile isDigitCh = r := by
  induction ds with
  | nil =>
    cases r with
    | nil => exact ⟨rfl, rfl⟩
    | cons c cr =>
      have hc : isDigitCh c = false := hnd
      constructor
      · simp [List.takeWhile_cons, hc]
      · simp [List.dropWhile_cons, hc]
  | cons d dt ih =>
    have hd : isDigitCh d = true := by
      simp only [List.all_cons, Bool.and_eq_true] at hall
      exact hall.1
    have hdt : dt.all isDigitCh = true := by
      simp only [List.all_cons, Bool.and_eq_true] at hall
      exact hall.2
    obtain ⟨h1, h2⟩ := ih hdt
    constructor
    · simp [List.takeWhile_cons, hd, h1]
    · simp [List.dropWhile_cons, hd, h2]

theorem matchDigits1_canon (ds r : List Char) (hne : ds ≠ []) (hall : ds.all isDigitCh = true)
    (hnd : headNotDigit r) : matchDigits1 (ds ++ r) = some (ds, r) := by
  obtain ⟨h1, h2⟩ := takeWhile_digits_append ds r hall hnd
  simp only [matchDigits1]
  rw [h1, h2]
  cases ds with
  | nil => exact absurd rfl hne
  | cons x xs => rfl

theorem matchDigits1_inv (s ds r : List Char) (h : matchDigits1 s = some (ds, r)) :
    s = ds ++ r ∧ ds ≠ [] ∧ ds.all isDigitCh = true := by
  simp only [matchDigits1] at h
  by_cases he : (s.takeWhile isDigitCh).isEmpty = true
  · rw [if_pos he] at h; cases h
  · rw [if_neg he] at h
    injection h with h
    have h1 : s.takeWhile isDigitCh = ds := congrArg Prod.fst h
    have h2 : s.dropWhile isDigitCh = r := congrArg Prod.snd h
    refine ⟨?_, ?_, ?_⟩
    · rw [← h1, ← h2, List.takeWhile_append_dropWhile]
    · intro hds
      rw [hds] at h1
      rw [h1] at he
      exact he rfl
    · rw [← h1]
      exact all_takeWhile_self isDigitCh s

theorem matchPieces_of_canon : ∀ (ps : List PatPiece) (s : List Char) (gs : List (List Char)),
    CanonAt ps s gs → matchPieces ps s = some gs := by
  intro ps
  induction ps with
  | nil =>
    intro s gs h
    have hgs : gs = [] := h
    rw [hgs]; rfl
  | cons p ps ih =>
    intro s gs h
    cases p with
    | lit l =>
      obtain ⟨s1, rfl, hc⟩ := h
      simp only [matchPieces]
      rw [matchLit_append]
      exact ih s1 gs hc
    | dig =>
      obtain ⟨d, s1, gs1, rfl, hne, hall, hnd, rfl, hc⟩ := h
      simp only [matchPieces]
      rw [matchDigits1_canon d s1 hne hall hnd]
      simp [ih s1 gs1 hc]

theorem patMatches_of_matchPieces : ∀ (ps : List PatPiece) (s : List Char) (gs : List (List Char)),
    matchPieces ps s = some gs → PatMatches ps s gs := by
  intro ps
  induction ps with
  | nil =>
    intro s gs h
    injection h with h
    exact h.symm
  | cons p ps ih =>
    intro s gs h
    cases p with
    | lit l =>
      simp only [matchPieces] at h
      cases hm : matchLit l s with
      | none => rw [hm] at h; cases h
      | some s1 =>
        rw [hm] at h
        exact ⟨s1, matchLit_inv l s s1 hm, ih s1 gs h⟩
    | dig =>
      simp only [matchPieces] at h
      cases hm : matchDigits1 s with
      | none => rw [hm] at h; cases h
      | some ds1 =>
        rw [hm] at h
        dsimp only at h
        cases hp : matchPieces ps ds1.2 with
        | none => rw [hp] at h; cases h
        | some gs1 =>
          rw [hp] at h
          injection h with h
          obtain ⟨h1, h2, h3⟩ := matchDigits1_inv s ds1.1 ds1.2 (by rw [hm])
          exact ⟨ds1.1, ds1.2, gs1, h1, h2, h3, h.symm, ih _ _ hp⟩

theorem searchPieces_inv (ps : List PatPiece) : ∀ (s : List Char) (gs : List (List Char)),
    searchPieces ps s = some gs → ∃ pre suf, s = pre ++ suf ∧ matchPieces ps suf = some gs := by
  intro s
  induction s with
  | nil => intro gs h; exact ⟨[], [], rfl, h⟩
  | cons c rest ih =>
    intro gs h
    simp only [searchPieces] at h
    cases hm : matchPieces ps (c :: rest) with
    | some gs1 =>
      rw [hm] at h
      injection h with h
      exact ⟨[], c :: rest, rfl, by rw [hm, h]⟩
    | none =>
      rw [hm] at h
      obtain ⟨pre, suf, heq, hsuf⟩ := ih gs h
      exact ⟨c :: pre, suf, by rw [List.cons_append, ← heq], hsuf⟩

theorem searchPieces_of_matchPieces (ps : List PatPiece) (s : List Char) (gs : List (List Char))
    (h : matchPieces ps s = some gs) : searchPieces ps s = some gs := by
  cases s with
  | nil => exact h
  | cons c rest =>
    simp only [searchPieces]
    rw [h]

/-- Claim C4: a filename matching the identifier pattern parses to the integer
fields encoded in it (plus the timestamp group in the read variant and the
last-fill group in the write variant); a successful parse implies the filename
really contains a pattern match, so a non-matching filename yields the defined
failure none and never a partial key (the result type carries either nothing
or every field). -/
theorem claimC4_identifier :
    (∀ a b c d rest : List Char,
        a ≠ [] → a.all isDigitCh = true → b ≠ [] → b.all isDigitCh = true →
        c ≠ [] → c.all isDigitCh = true → d ≠ [] → d.all isDigitCh = true →
        headNotDigit rest →
        parse_filename ("read_latency_".toList ++ (a ++ ("pct_".toList ++ (b ++
            ("B_thr".toList ++ (c ++ ("_".toList ++ (d ++ rest)))))))) =
          some (digitsVal a, digitsVal b, digitsVal c, d)) ∧
    (∀ f v, parse_filename f = some v → ReadNameMatch f) ∧
    (∀ a b c d rest : List Char,
        a ≠ [] → a.all isDigitCh = true → b ≠ [] → b.all isDigitCh = true →
        c ≠ [] → c.all isDigitCh = true → d ≠ [] → d.all isDigitCh = true →
        parse_hdr_filename ("write_latency_".toList ++ (a ++ ("pct_".toList ++ (b ++
            ("lastperc_".toList ++ (c ++ ("B_thr".toList ++ (d ++
              (".txt".toList ++ rest))))))))) =
          some (digitsVal a, digitsVal b, digitsVal c, digitsVal d)) ∧
    (∀ f v, parse_hdr_filename f = some v → WriteNameMatch f) := by
  refine ⟨?_, ?_, ?_, ?_⟩
  · intro a b c d rest ha haall hb hball hc hcall hd hdall hrest
    have hm : matchPieces readNamePat
        ("read_latency_".toList ++ (a ++ ("pct_".toList ++ (b ++
          ("B_thr".toList ++ (c ++ ("_".toList ++ (d ++ rest)))))))) =
        some [a, b, c, d] := by
      apply matchPieces_of_canon
      refine ⟨_, rfl, ?_⟩
      refine ⟨a, _, [b, c, d], rfl, ha, haall, ?_, rfl, ?_⟩
      · show isDigitCh 'p' = false
        decide
      refine ⟨_, rfl, ?_⟩
      refine ⟨b, _, [c, d], rfl, hb, hball, ?_, rfl, ?_⟩
      · show isDigitCh 'B' = false
        decide
      refine ⟨_, rfl, ?_⟩
      refine ⟨c, _, [d], rfl, hc, hcall, ?_, rfl, ?_⟩
      · show isDigitCh '_' = false
        decide
      refine ⟨_, rfl, ?_⟩
      exact ⟨d, rest, [], rfl, hd, hdall, hrest, rfl, rfl⟩
    unfold parse_filename
    rw [searchPieces_of_matchPieces _ _ _ hm]
  · intro f v h
    unfold parse_filename at h
    cases hs : searchPieces readNamePat f with
    | none => rw [hs] at h; cases h
    | some gs =>
      obtain ⟨pre, suf, heq, hm⟩ := searchPieces_inv readNamePat f gs hs
      exact ⟨pre, suf, gs, heq, patMatches_of_matchPieces _ _ _ hm⟩
  · intro a b c d rest ha haall hb hball hc hcall hd hdall
    have hm : matchPieces writeNamePat
        ("write_latency_".toList ++ (a ++ ("pct_".toList ++ (b ++
          ("lastperc_".toList ++ (c ++ ("B_thr".toList ++ (d ++
            (".txt".toList ++ rest))))))))) =
        some [a, b, c, d] := by
      apply matchPieces_of_canon
      refine ⟨_, rfl, ?_⟩
      refine ⟨a, _, [b, c, d], rfl, ha, haall, ?_, rfl, ?_⟩
      · show isDigitCh 'p' = false
        decide
      refine ⟨_, rfl, ?_⟩
      refine ⟨b, _, [c, d], rfl, hb, hball, ?_, rfl, ?_⟩
      · show isDigitCh 'l' = false
        decide
      refine ⟨_, rfl, ?_⟩
      refine ⟨c, _, [d], rfl, hc, hcall, ?_, rfl, ?_⟩
      · show isDigitCh 'B' = false
        decide
      refine ⟨_, rfl, ?_⟩
      refine ⟨d, _, [], rfl, hd, hdall, ?_, rfl, ?_⟩
      · show isDigitCh '.' = false
        decide
      exact ⟨_, rfl, rfl⟩
    unfold parse_hdr_filename
    rw [hm]
  · intro f v h
    unfold parse_hdr_filename at h
    cases hs : matchPieces writeNamePat f with
    | none => rw [hs] at h; cases h
    | some gs => exact ⟨gs, patMatches_of_matchPieces _ _ _ hs⟩

/-- Witness for claim C4 on two concrete filenames, one per variant. -/
theorem claimC4_witness :
    parse_filename "read_latency_50pct_1024B_thr20_1234.txt".toList =
      some (50, 1024, 20, "1234".toList) ∧
    parse_hdr_filename "write_latency_50pct_25lastperc_1024B_thr4.txt".toList =
      some (50, 25, 1024, 4) := by
  constructor
  · have h := claimC4_identifier.1 ['5', '0'] ['1', '0', '2', '4'] ['2', '0'] ['1', '2', '3', '4']
      ".txt".toList (by decide) (by decide) (by decide) (by decide) (by decide) (by decide)
      (by decide) (by decide) (by show isDigitCh '.' = false; decide)
    exact h
  · have h := claimC4_identifier.2.2.1 ['5', '0'] ['2', '5'] ['1', '0', '2', '4'] ['4']
      [] (by decide) (by decide) (by decide) (by decide) (by decide) (by decide)
      (by decide) (by decide)
    exact h

theorem configStep_samples (st : RState) (line : List Char) :
    (configStep st line).samples = st.samples := by
  unfold configStep
  split
  · split <;> rfl
  · rfl

theorem configStep_in_config (st : RState) (line : List Char) :
    (configStep st line).in_config = st.in_config := by
  unfold configStep
  split
  · split <;> rfl
  · rfl

theorem configStep_of_false (st : RState) (line : List Char) (h : st.in_config = false) :
    configStep st line = st := by
  unfold configStep
  rw [h]
  rfl

theorem tpsStep_of_cond_false (st : RState) (line : List Char)
    (h : (("2025-".toList).isPrefixOf line && containsSub ("read(tps=".toList) line) = false) :
    tpsStep st line = .ok st := by
  unfold tpsStep
  rw [h]
  rfl

theorem tpsStep_parts (st : RState) (line : List Char) (st2 : RState)
    (h : tpsStep st line = .ok st2) :
    st2.config = st.config ∧ st2.in_config = st.in_config := by
  unfold tpsStep at h
  split at h
  · split at h
    · split at h
      · injection h with h
        rw [← h]
        exact ⟨rfl, rfl⟩
      · injection h with h
        rw [← h]
        exact ⟨rfl, rfl⟩
    · cases h
  · injection h with h
    rw [← h]
    exact ⟨rfl, rfl⟩

theorem hdrStep_config (st : RState) (line : List Char) :
    (hdrStep st line).config = st.config ∧ (hdrStep st line).in_config = st.in_config := by
  unfold hdrStep
  split
  · split <;> exact ⟨rfl, rfl⟩
  · exact ⟨rfl, rfl⟩

theorem hdrStep_unchanged (st : RState) (line : List Char)
    (h : (("hdr: read".toList).isPrefixOf line) = false) : hdrStep st line = st := by
  unfold hdrStep
  rw [h]
  rfl

theorem isPrefixOf_head_ne (c1 c2 : Char) (p q : List Char) {line : List Char} (hne : c2 ≠ c1)
    (h : (c1 :: p).isPrefixOf line = true) : (c2 :: q).isPrefixOf line = false := by
  cases line with
  | nil => simp [List.isPrefixOf] at h
  | cons d rest =>
    simp only [List.isPrefixOf, Bool.and_eq_true] at h
    have hc1 : c1 = d := by
      have := h.1
      simpa using this
    simp only [List.isPrefixOf]
    have hc2 : (c2 == d) = false := by
      rw [← hc1]
      simp [hne]
    rw [hc2]
    rfl

theorem not_stage_of_hdr (line : List Char)
    (h : (("hdr: read".toList).isPrefixOf line) = true) :
    (("Stage 1:".toList).isPrefixOf line) = false :=
  isPrefixOf_head_ne 'h' 'S' ("dr: read".toList) ("tage 1:".toList) (by decide) h

theorem not_2025_of_hdr (line : List Char)
    (h : (("hdr: read".toList).isPrefixOf line) = true) :
    (("2025-".toList).isPrefixOf line) = false :=
  isPrefixOf_head_ne 'h' '2' ("dr: read".toList) ("025-".toList) (by decide) h

theorem not_hdr_of_2025 (line : List Char)
    (h : (("2025-".toList).isPrefixOf line) = true) :
    (("hdr: read".toList).isPrefixOf line) = false :=
  isPrefixOf_head_ne '2' 'h' ("025-".toList) ("dr: read".toList) (by decide) h

theorem not_stage_of_2025 (line : List Char)
    (h : (("2025-".toList).isPrefixOf line) = true) :
    (("Stage 1:".toList).isPrefixOf line) = false :=
  isPrefixOf_head_ne '2' 'S' ("025-".toList) ("tage 1:".toList) (by decide) h

theorem processLine_samples (st : RState) (raw : List Char) (st' : RState)
    (h : processLine st raw = .ok st') :
    st'.samples = effApply st.samples (lineEff raw) := by
  unfold processLine at h
  unfold lineEff
  by_cases hst : (("Stage 1:".toList).isPrefixOf (pstrip raw)) = true
  · rw [if_pos hst] at h
    rw [if_pos hst]
    injection h with h
    rw [← h]
    show (configStep st (pstrip raw)).samples = effApply st.samples Eff.noop
    rw [configStep_samples]
    rfl
  · rw [if_neg hst] at h
    rw [if_neg hst]
    cases ht : tpsStep (configStep st (pstrip raw)) (pstrip raw) with
    | error e => rw [ht] at h; cases h
    | ok st2 =>
      rw [ht] at h
      dsimp only at h
      injection h with h
      by_cases htps : (("2025-".toList).isPrefixOf (pstrip raw) &&
          containsSub ("read(tps=".toList) (pstrip raw)) = true
      · rw [if_pos htps]
        have hpre : (("2025-".toList).isPrefixOf (pstrip raw)) = true := by
          rw [Bool.and_eq_true] at htps
          exact htps.1
        have hnohdr := not_hdr_of_2025 _ hpre
        unfold tpsStep at ht
        rw [if_pos htps] at ht
        cases hsp : psplitWs (pstrip raw) with
        | nil =>
          rw [hsp] at ht
          cases ht
        | cons p0 ptail =>
          cases ptail with
          | nil =>
            rw [hsp] at ht
            cases ht
          | cons p1 prest =>
            rw [hsp] at ht
            dsimp only at ht
            dsimp only
            cases hsr : searchReadTps (pstrip raw) with
            | some g =>
              rw [hsr] at ht
              injection ht with ht
              dsimp only
              rw [← h, hdrStep_unchanged _ _ hnohdr, ← ht]
              show (configStep st (pstrip raw)).samples ++ _ = _
              rw [configStep_samples]
              rfl
            | none =>
              rw [hsr] at ht
              injection ht with ht
              dsimp only
              rw [← h, hdrStep_unchanged _ _ hnohdr, ← ht]
              rw [configStep_samples]
              rfl
      · rw [if_neg htps]
        have hcf : (("2025-".toList).isPrefixOf (pstrip raw) &&
            containsSub ("read(tps=".toList) (pstrip raw)) = false :=
          Bool.eq_false_iff.mpr htps
        rw [tpsStep_of_cond_false _ _ hcf] at ht
        injection ht with ht
        by_cases hhdr : (("hdr: read".toList).isPrefixOf (pstrip raw)) = true
        · rw [if_pos hhdr]
          rw [← h]
          unfold hdrStep
          rw [if_pos hhdr]
          cases hph : parseHdrRead (psplitWs (pstrip raw)) with
          | some hd =>
            dsimp only
            rw [← ht]
            show updateLast (configStep st (pstrip raw)).samples hd = _
            rw [configStep_samples]
            rfl
          | none =>
            dsimp only
            rw [← ht]
            rw [configStep_samples]
            rfl
        · rw [if_neg hhdr]
          rw [← h, hdrStep_unchanged _ _ (Bool.eq_false_iff.mpr hhdr), ← ht]
          rw [configStep_samples]
          rfl

theorem runRead_samples : ∀ (ls : List (List Char)) (st st' : RState),
    runRead st ls = .ok st' → st'.samples = effFold st.samples (ls.map lineEff) := by
  intro ls
  induction ls with
  | nil =>
    intro st st' h
    injection h with h
    rw [← h]
    rfl
  | cons l ls ih =>
    intro st st' h
    unfold runRead at h
    cases hp : processLine st l with
    | error e => rw [hp] at h; cases h
    | ok st1 =>
      rw [hp] at h
      have hs := ih st1 st' h
      rw [hs, List.map_cons]
      show effFold st1.samples (ls.map lineEff) = (lineEff l :: ls.map lineEff).foldl effApply st.samples
      rw [List.foldl_cons]
      rw [processLine_samples st l st1 hp]
      rfl

theorem updateLast_append (l : List Sample) (x : Sample) (hd : HdrData) :
    updateLast (l ++ [x]) hd = l ++ [applyHdr x hd] := by
  induction l with
  | nil => rfl
  | cons a t ih =>
    cases t with
    | nil => rfl
    | cons b t2 =>
      show a :: updateLast ((b :: t2) ++ [x]) hd = _
      rw [ih]
      rfl

theorem effFold_snoc : ∀ (es : List Eff) (l : List Sample) (cur : Sample),
    effFold (l ++ [cur]) es = l ++ specGo cur es := by
  intro es
  induction es with
  | nil => intro l cur; rfl
  | cons e rest ih =>
    intro l cur
    cases e with
    | app s =>
      show effFold ((l ++ [cur]) ++ [s]) rest = l ++ (cur :: specGo s rest)
      rw [ih (l ++ [cur]) s, List.append_assoc]
      rfl
    | upd hd =>
      show effFold (updateLast (l ++ [cur]) hd) rest = l ++ specGo (applyHdr cur hd) rest
      rw [updateLast_append, ih]
    | noop =>
      show effFold (l ++ [cur]) rest = l ++ specGo cur rest
      exact ih l cur
    | crash =>
      show effFold (l ++ [cur]) rest = l ++ specGo cur rest
      exact ih l cur

theorem effFold_specMerge : ∀ es : List Eff, noLeadingUpd es = true →
    effFold [] es = specMerge es := by
  intro es
  induction es with
  | nil => intro h; rfl
  | cons e rest ih =>
    intro hn
    cases e with
    | app s =>
      show effFold ([] ++ [s]) rest = specGo s rest
      rw [effFold_snoc rest [] s]
      rfl
    | upd hd => exact absurd hn (by simp [noLeadingUpd])
    | noop =>
      show effFold [] rest = specMerge rest
      exact ih hn
    | crash =>
      show effFold [] rest = specMerge rest
      exact ih hn

theorem specGo_length : ∀ (es : List Eff) (cur : Sample),
    (specGo cur es).length = 1 + countApp es := by
  intro es
  induction es with
  | nil => intro cur; simp [specGo, countApp]
  | cons e rest ih =>
    intro cur
    cases e with
    | app s =>
      show (cur :: specGo s rest).length = 1 + countApp (.app s :: rest)
      simp [List.length_cons, ih s, countApp, List.countP_cons, isApp]
      omega
    | upd hd =>
      show (specGo (applyHdr cur hd) rest).length = 1 + countApp (.upd hd :: rest)
      simp [ih, countApp, List.countP_cons, isApp]
    | noop =>
      show (specGo cur rest).length = 1 + countApp (.noop :: rest)
      simp [ih, countApp, List.countP_cons, isApp]
    | crash =>
      show (specGo cur rest).length = 1 + countApp (.crash :: rest)
      simp [ih, countApp, List.countP_cons, isApp]

theorem specMerge_length : ∀ es : List Eff, (specMerge es).length = countApp es := by
  intro es
  induction es with
  | nil => rfl
  | cons e rest ih =>
    cases e with
    | app s =>
      show (specGo s rest).length = countApp (.app s :: rest)
      simp [specGo_length, countApp, List.countP_cons, isApp]
      omega
    | upd hd =>
      show (specMerge rest).length = countApp (.upd hd :: rest)
      simpa [countApp, List.countP_cons, isApp] using ih
    | noop =>
      show (specMerge rest).length = countApp (.noop :: rest)
      simpa [countApp, List.countP_cons, isApp] using ih
    | crash =>
      show (specMerge rest).length = countApp (.crash :: rest)
      simpa [countApp, List.countP_cons, isApp] using ih

/-- Claim C2, amended to the read-variant parser: on a log file whose
histogram lines are all preceded by at least one throughput line, the sample
sequence is exactly the append-then-update merge - one Sample per throughput
line in file order, so the length equals the throughput-line count - and a
histogram update rewrites only the timestamp and latency payload, keeping the
throughput and auxiliary counts of the Sample it lands on.  (In the
write-variant parser the roles are reversed; see the counterexample.) -/
theorem claimC2_read_merge :
    (∀ (ls : List (List Char)) (st : RState), extractReadState ls = .ok st →
        noLeadingUpd (ls.map lineEff) = true →
        st.samples = specMerge (ls.map lineEff) ∧
        st.samples.length = countApp (ls.map lineEff)) ∧
    (∀ (s : Sample) (hd : HdrData), (applyHdr s hd).tps = s.tps ∧
        (applyHdr s hd).hits = s.hits ∧ (applyHdr s hd).misses = s.misses ∧
        (applyHdr s hd).timeouts = s.timeouts ∧ (applyHdr s hd).errors = s.errors ∧
        (applyHdr s hd).hdr = some hd) := by
  constructor
  · intro ls st h hn
    have hs := runRead_samples ls ⟨true, [], []⟩ st h
    have : st.samples = specMerge (ls.map lineEff) := by
      rw [hs]
      exact effFold_specMerge _ hn
    exact ⟨this, by rw [this, specMerge_length]⟩
  · intro s hd
    exact ⟨rfl, rfl, rfl, rfl, rfl, rfl⟩

/-- Witness for claim C2: one well-formed throughput line followed by one
histogram line merges into a single Sample carrying both payloads. -/
theorem claimC2_witness :
    (RState.mk false [("Stage 1".toList, "default".toList)]
        [⟨"12:00:01".toList, 1000, 900, 100, 0, 0,
          some ⟨"12:00:01".toList, 1, 1000, 5, 500, 50, 90, 99, 150, none⟩⟩]).samples =
      specMerge ((["Stage 1: default".toList,
        "2025-05-12 12:00:01 INFO read(tps=1000 (hit=900 miss=100) timeouts=0 errors=0)".toList,
        "hdr: read 12:00:01 1, 1000, 5, 500, 50, 90, 99, 150".toList]).map lineEff) ∧
    (RState.mk false [("Stage 1".toList, "default".toList)]
        [⟨"12:00:01".toList, 1000, 900, 100, 0, 0,
          some ⟨"12:00:01".toList, 1, 1000, 5, 500, 50, 90, 99, 150, none⟩⟩]).samples.length =
      countApp ((["Stage 1: default".toList,
        "2025-05-12 12:00:01 INFO read(tps=1000 (hit=900 miss=100) timeouts=0 errors=0)".toList,
        "hdr: read 12:00:01 1, 1000, 5, 500, 50, 90, 99, 150".toList]).map lineEff) :=
  claimC2_read_merge.1
    ["Stage 1: default".toList,
     "2025-05-12 12:00:01 INFO read(tps=1000 (hit=900 miss=100) timeouts=0 errors=0)".toList,
     "hdr: read 12:00:01 1, 1000, 5, 500, 50, 90, 99, 150".toList]
    (RState.mk false [("Stage 1".toList, "default".toList)]
      [⟨"12:00:01".toList, 1000, 900, 100, 0, 0,
        some ⟨"12:00:01".toList, 1, 1000, 5, 500, 50, 90, 99, 150, none⟩⟩])
    (by rfl) (by rfl)

/-- Counterexample to claim C2 as stated: the write-variant parser drops a
throughput line that no histogram line has preceded, so a file consisting of
one well-formed throughput line yields zero Samples where the claim requires
exactly one. -/
theorem claimC2_counterexample :
    ¬ ((extractWriteState ["2025-01-01 00:00:01 write(tps=100)".toList]).toOption.map
        (fun st => st.metrics.length) = some 1) := by
  decide

/-- Claim C5, amended: a numeric parse failure on a percentile-data line of a
histogram file, or on an hdr sample line in the read-variant log parser, is
non-fatal - the line is skipped, the state is unchanged and parsing resumes.
(In the write-variant log parser such a failure aborts the file; see the
counterexample.) -/
theorem claimC5_skip_line :
    (∀ (st : RState) (raw : List Char), st.in_config = false →
        (("hdr: read".toList).isPrefixOf (pstrip raw)) = true →
        parseHdrRead (psplitWs (pstrip raw)) = none →
        processLine st raw = .ok st) ∧
    (∀ (tbl : List (ℚ × ℚ)) (raw : List Char), percLineParse (pstrip raw) = none →
        hdrPercentileStep tbl raw = tbl) := by
  constructor
  · intro st raw hic hpre hparse
    unfold processLine
    rw [configStep_of_false st _ hic]
    rw [if_neg (Bool.eq_false_iff.mp (not_stage_of_hdr _ hpre))]
    rw [tpsStep_of_cond_false st _ (by rw [not_2025_of_hdr _ hpre]; rfl)]
    dsimp only
    unfold hdrStep
    rw [if_pos hpre, hparse]
  · intro tbl raw hp
    unfold hdrPercentileStep
    split
    · rw [hp]
    · rfl

/-- Witness for claim C5: a malformed hdr line leaves the read-parser state
untouched, and a malformed percentile line leaves the percentile table
untouched. -/
theorem claimC5_witness :
    processLine ⟨false, [], []⟩ "hdr: read T x, 2, 3, 4, 5, 6, 7, 8".toList =
      .ok ⟨false, [], []⟩ ∧
    hdrPercentileStep [(1 / 2, 120)] "abc 0.99 100".toList = [(1 / 2, 120)] :=
  ⟨claimC5_skip_line.1 ⟨false, [], []⟩ _ rfl (by rfl) (by rfl),
   claimC5_skip_line.2 [(1 / 2, 120)] _ (by rfl)⟩

/-- Counterexample to claim C5 as stated: in the write-variant log parser a
numeric parse failure on one hdr sample line raises an uncaught ValueError, so
the file aborts and yields no result at all, where the claim requires the line
to be skipped and the file to still yield a result. -/
theorem claimC5_counterexample :
    extractWriteState ["hdr: write T a, 2, 3, 4, 5, 6, 7, 8".toList] = .error () := by
  rfl

theorem processLine_sampleState (st : RState) (raw : List Char) (st' : RState)
    (hic : st.in_config = false) (h : processLine st raw = .ok st') :
    st'.in_config = false ∧ st'.config = st.config := by
  unfold processLine at h
  rw [configStep_of_false st _ hic] at h
  by_cases hst : (("Stage 1:".toList).isPrefixOf (pstrip raw)) = true
  · rw [if_pos hst] at h
    injection h with h
    rw [← h]
    exact ⟨rfl, rfl⟩
  · rw [if_neg hst] at h
    cases ht : tpsStep st (pstrip raw) with
    | error e => rw [ht] at h; cases h
    | ok st2 =>
      rw [ht] at h
      dsimp only at h
      injection h with h
      obtain ⟨hc2, hi2⟩ := tpsStep_parts st _ st2 ht
      obtain ⟨hc3, hi3⟩ := hdrStep_config st2 (pstrip raw)
      rw [← h]
      exact ⟨by rw [hi3, hi2, hic], by rw [hc3, hc2]⟩

theorem runRead_sampleState : ∀ (ls : List (List Char)) (st st' : RState),
    st.in_config = false → runRead st ls = .ok st' →
    st'.in_config = false ∧ st'.config = st.config := by
  intro ls
  induction ls with
  | nil =>
    intro st st' hic h
    injection h with h
    rw [← h]
    exact ⟨hic, rfl⟩
  | cons l ls ih =>
    intro st st' hic h
    unfold runRead at h
    cases hp : processLine st l with
    | error e => rw [hp] at h; cases h
    | ok st1 =>
      rw [hp] at h
      obtain ⟨hi1, hc1⟩ := processLine_sampleState st l st1 hic hp
      obtain ⟨hi2, hc2⟩ := ih st1 st' hi1 h
      exact ⟨hi2, by rw [hc2, hc1]⟩

theorem splitColon1_isSome : ∀ s : List Char, s.any (fun c => c == ':') = true →
    ∃ kv, splitColon1 s = some kv := by
  intro s
  induction s with
  | nil => intro h; simp at h
  | cons c rest ih =>
    intro h
    simp only [splitColon1]
    by_cases hc : (c == ':') = true
    · rw [if_pos hc]
      exact ⟨([], rest), rfl⟩
    · rw [if_neg hc]
      have hrest : rest.any (fun c => c == ':') = true := by
        simp only [List.any_cons, Bool.eq_false_iff.mpr hc, Bool.false_or] at h
        exact h
      obtain ⟨kv, hkv⟩ := ih hrest
      rw [hkv]
      exact ⟨(c :: kv.1, kv.2), rfl⟩

/-- Claim C6, amended to the read-variant parser: the parser is a two-state
machine; in the header state every colon-containing line that does not start
with the year literal writes its key and value into config_header; a line
starting with the stage marker clears the in_config flag, every other line
leaves a true flag true, and once the flag is false no later line modifies
config_header and the flag never returns to true.  (The write-variant parser
has no such state machine; see the counterexample.) -/
theorem claimC6_read_two_state :
    (∀ (ls : List (List Char)) (st st' : RState), st.in_config = false →
        runRead st ls = .ok st' → st'.in_config = false ∧ st'.config = st.config) ∧
    (∀ (st : RState) (raw : List Char) (st' : RState), st.in_config = true →
        (pstrip raw).any (fun c => c == ':') = true →
        (("2025-".toList).isPrefixOf (pstrip raw)) = false →
        processLine st raw = .ok st' →
        ∃ kv, splitColon1 (pstrip raw) = some kv ∧
          st'.config = dictInsert st.config (pstrip kv.1) (pstrip kv.2)) ∧
    (∀ (st : RState) (raw : List Char) (st' : RState),
        (("Stage 1:".toList).isPrefixOf (pstrip raw)) = true →
        processLine st raw = .ok st' → st'.in_config = false) ∧
    (∀ (st : RState) (raw : List Char) (st' : RState), st.in_config = true →
        (("Stage 1:".toList).isPrefixOf (pstrip raw)) = false →
        processLine st raw = .ok st' → st'.in_config = true) := by
  refine ⟨runRead_sampleState, ?_, ?_, ?_⟩
  · intro st raw st' hic hcol hnp h
    obtain ⟨kv, hkv⟩ := splitColon1_isSome _ hcol
    refine ⟨kv, hkv, ?_⟩
    unfold processLine at h
    have hcs : configStep st (pstrip raw) =
        { st with config := dictInsert st.config (pstrip kv.1) (pstrip kv.2) } := by
      unfold configStep
      rw [if_pos (by rw [hic, hcol, hnp]; rfl), hkv]
    rw [hcs] at h
    by_cases hstg : (("Stage 1:".toList).isPrefixOf (pstrip raw)) = true
    · rw [if_pos hstg] at h
      injection h with h
      rw [← h]
    · rw [if_neg hstg] at h
      have hcf : (("2025-".toList).isPrefixOf (pstrip raw) &&
          containsSub ("read(tps=".toList) (pstrip raw)) = false := by
        rw [hnp]; rfl
      rw [tpsStep_of_cond_false _ _ hcf] at h
      dsimp only at h
      injection h with h
      rw [← h]
      exact (hdrStep_config _ (pstrip raw)).1
  · intro st raw st' hstg h
    unfold processLine at h
    rw [if_pos hstg] at h
    injection h with h
    rw [← h]
  · intro st raw st' hic hstg h
    unfold processLine at h
    rw [if_neg (Bool.eq_false_iff.mp hstg)] at h
    cases ht : tpsStep (configStep st (pstrip raw)) (pstrip raw) with
    | error e => rw [ht] at h; cases h
    | ok st2 =>
      rw [ht] at h
      dsimp only at h
      injection h with h
      obtain ⟨hc2, hi2⟩ := tpsStep_parts _ _ st2 ht
      rw [← h, (hdrStep_config st2 (pstrip raw)).2, hi2, configStep_in_config]
      exact hic

/-- Witness for claim C6: a run over one key-value line from the sample-stream
state leaves the config untouched, a key-value line in the header state
populates the config dict, a stage-marker line clears the flag, and a
non-marker line keeps a true flag true. -/
theorem claimC6_witness :
    ((RState.mk false [("k".toList, "v".toList)] []).in_config = false ∧
      (RState.mk false [("k".toList, "v".toList)] []).config =
        (RState.mk false [("k".toList, "v".toList)] []).config) ∧
    (∃ kv, splitColon1 (pstrip "Threads: 20".toList) = some kv ∧
      (RState.mk true [("Threads".toList, "20".toList)] []).config =
        dictInsert (RState.mk true ([] : List (List Char × List Char)) []).config
          (pstrip kv.1) (pstrip kv.2)) ∧
    (RState.mk false [("Stage 1".toList, "default".toList)] []).in_config = false ∧
    (RState.mk true [("Threads".toList, "20".toList)] []).in_config = true :=
  ⟨claimC6_read_two_state.1 ["x: y".toList] (RState.mk false [("k".toList, "v".toList)] [])
     (RState.mk false [("k".toList, "v".toList)] []) rfl (by rfl),
   claimC6_read_two_state.2.1 (RState.mk true [] []) "Threads: 20".toList
     (RState.mk true [("Threads".toList, "20".toList)] []) rfl (by rfl) (by rfl) (by rfl),
   claimC6_read_two_state.2.2.1 (RState.mk true [] []) "Stage 1: default".toList
     (RState.mk false [("Stage 1".toList, "default".toList)] []) (by rfl) (by rfl),
   claimC6_read_two_state.2.2.2 (RState.mk true [] []) "Threads: 20".toList
     (RState.mk true [("Threads".toList, "20".toList)] []) rfl (by rfl) (by rfl)⟩

/-- Counterexample to claim C6 as stated: the write-variant parser has no
header state - a key-value line arriving after a histogram sample line still
modifies config_header. -/
theorem claimC6_counterexample :
    extractWriteState ["hdr: write T 1, 2, 3, 4, 5, 6, 7, 8".toList, "a: b".toList] =
      .ok ⟨[("a".toList, "b".toList)],
        [⟨"T".toList, 1, 2, 3, 4, 5, 6, 7, 8, none, none⟩]⟩ ∧
    ¬ ((extractWriteState ["hdr: write T 1, 2, 3, 4, 5, 6, 7, 8".toList,
          "a: b".toList]).toOption.map (fun st => st.config) = some []) := by
  constructor
  · rfl
  · decide

/-- Claim C9, amended: a histogram line seen in the sample-stream state while
the sample sequence is empty is dropped silently - no error, no Sample, state
unchanged, parsing continues.  (Seen while still in the config-header state it
additionally populates config_header; see the counterexample.) -/
theorem claimC9_empty_hdr_drop :
    ∀ (st : RState) (raw : List Char), st.in_config = false → st.samples = [] →
      (("hdr: read".toList).isPrefixOf (pstrip raw)) = true →
      processLine st raw = .ok st := by
  intro st raw hic hsmp hpre
  unfold processLine
  rw [configStep_of_false st _ hic]
  rw [if_neg (Bool.eq_false_iff.mp (not_stage_of_hdr _ hpre))]
  rw [tpsStep_of_cond_false st _ (by rw [not_2025_of_hdr _ hpre]; rfl)]
  dsimp only
  unfold hdrStep
  rw [if_pos hpre]
  cases hph : parseHdrRead (psplitWs (pstrip raw)) with
  | some hd =>
    dsimp only
    have hupd : updateLast st.samples hd = st.samples := by
      rw [hsmp]
      rfl
    rw [hupd]
  | none => rfl

/-- Witness for claim C9: a well-formed histogram line arriving on an empty
sample list in the sample-stream state leaves the state exactly as it was. -/
theorem claimC9_witness :
    processLine ⟨false, [], []⟩ "hdr: read T 1, 2, 3, 4, 5, 6, 7, 8".toList =
      .ok ⟨false, [], []⟩ :=
  claimC9_empty_hdr_drop ⟨false, [], []⟩ _ rfl rfl (by rfl)

/-- Counterexample to claim C9 as stated: a histogram line arriving with an
empty sample sequence while the parser is still in the config-header state
does modify config_header (it contains a colon), so the state is not
unchanged. -/
theorem claimC9_counterexample :
    processLine ⟨true, [], []⟩ "hdr: read T 1".toList =
      .ok ⟨true, [("hdr".toList, "read T 1".toList)], []⟩ ∧
    processLine ⟨true, [], []⟩ "hdr: read T 1".toList ≠ .ok ⟨true, [], []⟩ := by
  constructor
  · rfl
  · decide

theorem lineEff_no2025 (raw : List Char)
    (h : (("2025-".toList).isPrefixOf (pstrip raw)) = false) :
    lineEff raw = .noop ∨ ∃ hd, lineEff raw = .upd hd := by
  unfold lineEff
  by_cases hst : (("Stage 1:".toList).isPrefixOf (pstrip raw)) = true
  · rw [if_pos hst]
    exact Or.inl rfl
  · rw [if_neg hst]
    have hcf : (("2025-".toList).isPrefixOf (pstrip raw) &&
        containsSub ("read(tps=".toList) (pstrip raw)) = false := by
      rw [h]; rfl
    rw [if_neg (Bool.eq_false_iff.mp hcf)]
    by_cases hh : (("hdr: read".toList).isPrefixOf (pstrip raw)) = true
    · rw [if_pos hh]
      cases hph : parseHdrRead (psplitWs (pstrip raw)) with
      | some hd =>
        dsimp only
        exact Or.inr ⟨hd, rfl⟩
      | none =>
        dsimp only
        exact Or.inl rfl
    · rw [if_neg hh]
      exact Or.inl rfl

theorem processLine_ok_no2025 (st : RState) (raw : List Char)
    (h : (("2025-".toList).isPrefixOf (pstrip raw)) = false) :
    ∃ st', processLine st raw = .ok st' := by
  unfold processLine
  by_cases hst : (("Stage 1:".toList).isPrefixOf (pstrip raw)) = true
  · rw [if_pos hst]
    exact ⟨_, rfl⟩
  · rw [if_neg hst]
    rw [tpsStep_of_cond_false _ _ (by rw [h]; rfl)]
    exact ⟨_, rfl⟩

theorem runRead_no2025 : ∀ (ls : List (List Char)) (st : RState),
    (∀ l ∈ ls, (("2025-".toList).isPrefixOf (pstrip l)) = false) → st.samples = [] →
    ∃ st', runRead st ls = .ok st' ∧ st'.samples = [] := by
  intro ls
  induction ls with
  | nil =>
    intro st _ hsmp
    exact ⟨st, rfl, hsmp⟩
  | cons l ls ih =>
    intro st hall hsmp
    have hl := hall l (List.mem_cons_self l ls)
    obtain ⟨st1, hst1⟩ := processLine_ok_no2025 st l hl
    have hsm1 : st1.samples = [] := by
      have heq := processLine_samples st l st1 hst1
      rcases lineEff_no2025 l hl with he | ⟨hd, he⟩
      · rw [he] at heq
        rw [heq]
        exact hsmp
      · rw [he] at heq
        rw [heq]
        show updateLast st.samples hd = []
        rw [hsmp]
        rfl
    obtain ⟨st', hrun, hfin⟩ := ih st1 (fun l2 hl2 => hall l2 (List.mem_cons_of_mem _ hl2)) hsm1
    refine ⟨st', ?_, hfin⟩
    unfold runRead
    rw [hst1]
    exact hrun

/-- Claim C10: the read-variant parser recognises a throughput line only when
it starts with the literal 2025- (besides containing the tps marker), and the
same literal test excludes such lines from config-header parsing; a log file
none of whose lines start with 2025- parses to an empty sample sequence even
when it contains well-formed throughput lines of another year. -/
theorem claimC10_year_literal :
    (∀ ls : List (List Char), (∀ l ∈ ls, (("2025-".toList).isPrefixOf (pstrip l)) = false) →
        ∃ st', extractReadState ls = .ok st' ∧ st'.samples = []) ∧
    (∀ (st : RState) (raw : List Char) (st' : RState),
        (("2025-".toList).isPrefixOf (pstrip raw)) = true →
        processLine st raw = .ok st' →
        st'.config = st.config ∧ st'.in_config = st.in_config) := by
  constructor
  · intro ls hall
    exact runRead_no2025 ls ⟨true, [], []⟩ hall rfl
  · intro st raw st' hpre h
    unfold processLine at h
    have hcfg : configStep st (pstrip raw) = st := by
      unfold configStep
      simp only [hpre, Bool.not_true, Bool.and_false]
      rfl
    rw [hcfg] at h
    rw [if_neg (Bool.eq_false_iff.mp (not_stage_of_2025 _ hpre))] at h
    cases ht : tpsStep st (pstrip raw) with
    | error e => rw [ht] at h; cases h
    | ok st2 =>
      rw [ht] at h
      dsimp only at h
      injection h with h
      obtain ⟨hc2, hi2⟩ := tpsStep_parts st _ st2 ht
      rw [← h, hdrStep_unchanged _ _ (not_hdr_of_2025 _ hpre)]
      exact ⟨hc2, hi2⟩

/-- Witness for claim C10: a log with one well-formed 2024 throughput line
parses to no samples, and a 2025-prefixed line leaves the config header and
the state flag unchanged. -/
theorem claimC10_witness :
    (∃ st', extractReadState
        ["2024-01-01 00:00:01 INFO read(tps=5 (hit=4 miss=1) timeouts=0 errors=0)".toList] =
        .ok st' ∧ st'.samples = []) ∧
    ((RState.mk true [] []).config = (RState.mk true [] []).config ∧
      (RState.mk true [] []).in_config = (RState.mk true [] []).in_config) :=
  ⟨claimC10_year_literal.1
     ["2024-01-01 00:00:01 INFO read(tps=5 (hit=4 miss=1) timeouts=0 errors=0)".toList]
     (by intro l hl; rw [List.mem_singleton] at hl; subst hl; rfl),
   claimC10_year_literal.2 (RState.mk true [] []) "2025-01-01 00:00:01 note".toList
     (RState.mk true [] []) (by rfl) (by rfl)⟩
